import Mathlib

/-!
Shallow embedding of the `ark-encryption` crate's core (`src/circuit.rs`):
an exponential-ElGamal-style encryption scheme over an elliptic-curve group
together with the value-level semantics of its R1CS verification gadget.

The external boundaries (curve arithmetic, Poseidon sponge, constraint
engine) are modelled parametrically, exactly at the interface the code
consumes:
* `S`  — the scalar field (`C::ScalarField`), a commutative ring acting on
  the group;
* `G`  — the projective curve group (`C`), an additive group with an
  `S`-module structure (scalar multiplication `mul_assign`);
* `A`  — affine representations (`C::Affine`), reached via `toAffine`
  (`into_affine`);
* `Fq` — the base field (`C::BaseField`), an additive commutative group
  (only `+`, `-`, `0` are used by this code);
* `P`  — Poseidon parameter sets (`PoseidonParameters<C::BaseField>`);
* `H : P → A → Fq` — absorbing one affine point into a fresh Poseidon
  sponge and squeezing one base-field element
  (`PoseidonSponge::new / absorb / squeeze_field_elements(1)`); the
  in-circuit sponge gadget is congruent with the native sponge, which is
  the load-bearing external contract, so both paths use the same `H`;
* `reprBits : S → List Bool` — the little-endian bit decomposition of a
  scalar's canonical byte encoding (`to_bytes![r]` followed by
  per-byte `to_bits_le`);
* `toFieldG : G → List Ft`, `toFieldF : Fq → List Ft` — the
  `ToConstraintField` embeddings into the pairing engine's `E::Fr`.
-/

namespace ArkEncryption

/-- Outcome of a Rust function whose body may abort through a panicking
`assert!` in addition to returning through its `Result` channel.
`panicked` models an `assert!` failure (unrecoverable abort), `err` models
an `Err(_)` return (the recoverable channel, `SynthesisError` here), and
`ok` a normal return. -/
inductive Outcome (α : Type) where
  | panicked : Outcome α
  | err : Outcome α
  | ok : α → Outcome α
deriving DecidableEq, Repr

/-- `Parameters<C>`: batch width `n` and the Poseidon configuration. -/
structure Parameters (P : Type) where
  n : Nat
  poseidon : P
deriving Repr

section Scheme

variable {S G A Fq P Ft : Type}
variable [CommRing S] [AddCommGroup G] [Module S G] [AddCommGroup Fq]

/-- `EncryptCircuit::encrypt`: `c1 = r·g`, `p_ra = (r·pk).into_affine()`,
`dh` = one sponge squeeze after absorbing `p_ra`, and `c2ᵢ = dh + mᵢ`.
The Rust function returns `anyhow::Result` but has no failure path. -/
def encrypt (gen : G) (toAffine : G → A) (H : P → A → Fq)
    (pk : G) (msg : List Fq) (r : S) (params : Parameters P) : G × List Fq :=
  let c1 := r • gen
  let p_ra := toAffine (r • pk)
  let dh := H params.poseidon p_ra
  (c1, msg.map fun m => dh + m)

/-- `EncryptCircuit::decrypt`: `s = sk·c1` (affine), `dh = H(s)`,
`mᵢ = c2ᵢ - dh` for every slot. -/
def decrypt (toAffine : G → A) (H : P → A → Fq)
    (cipher : G × List Fq) (sk : S) (params : Parameters P) : List Fq :=
  let sa := toAffine (sk • cipher.1)
  let dh := H params.poseidon sa
  cipher.2.map fun c2i => c2i - dh

/-- `EncryptCircuit::decrypt_at`: the Rust body first evaluates
`cipher.1[idx]`, which panics when `idx` is out of bounds; the
out-of-bounds abort is modelled as `none`. -/
def decrypt_at (toAffine : G → A) (H : P → A → Fq)
    (cipher : G × List Fq) (idx : Nat) (sk : S) (params : Parameters P) :
    Option Fq :=
  match cipher.2[idx]? with
  | none => none
  | some c2 =>
    let sa := toAffine (sk • cipher.1)
    let dh := H params.poseidon sa
    some (c2 - dh)

/-- `EncryptCircuit::get_public_inputs`: `c1.to_field_elements()` followed
by, for `i` in `0..n`, the field-element embedding of `cipher.1.get(i)`
with the zero element substituted when absent. -/
def get_public_inputs (toFieldG : G → List Ft) (toFieldF : Fq → List Ft)
    (cipher : G × List Fq) (params : Parameters P) : List Ft :=
  let c1_inputs := toFieldG cipher.1
  let c2_inputs :=
    ((List.range params.n).map fun i => cipher.2.getD i 0).flatMap
      fun c2 => toFieldF c2
  c1_inputs ++ c2_inputs

/-- `EncryptCircuit<C, CV>`: the top-level circuit object's data. -/
structure EncryptCircuit (S G Fq P : Type) where
  r : S
  msg : List Fq
  pk : G
  resulted_ciphertext : G × List Fq
  params : Parameters P

/-- `EncryptCircuit::new`: samples `r` (modelled as the already-sampled
scalar argument), encrypts natively, and stores everything. The Rust
function only propagates `encrypt`'s error, which never occurs. -/
def EncryptCircuit.new (gen : G) (toAffine : G → A) (H : P → A → Fq)
    (pk : G) (msg : List Fq) (params : Parameters P) (r : S) :
    EncryptCircuit S G Fq P :=
  ⟨r, msg, pk, encrypt gen toAffine H pk msg r params, params⟩

/-- `scalar_mul_le` of `ark-r1cs-std`'s `CurveVar`: little-endian
double-and-add over the bit vector, `Σᵢ bitᵢ·2ⁱ·p`. -/
def scalar_mul_le (p : G) : List Bool → G
  | [] => 0
  | b :: bs => (if b then p else 0) + (2 : ℕ) • scalar_mul_le p bs

/-- `EncryptCircuit::ciphertext_var` (value level): the public ciphertext
allocated slot-wise for `i` in `0..n`, `resulted_ciphertext.1.get(i)` with
zero substituted when absent — the fixed-width zero-padding of `c2`. -/
def ciphertext_var (circ : EncryptCircuit S G Fq P) : G × List Fq :=
  (circ.resulted_ciphertext.1,
    (List.range circ.params.n).map fun i => circ.resulted_ciphertext.2.getD i 0)

variable [DecidableEq G] [DecidableEq Fq]

/-- `EncryptCircuit::verify_encryption`, value-level semantics.

The two `assert!` statements abort synthesis (`Outcome.panicked`) before
any constraint is emitted. Otherwise all variables carry the concrete
values their allocation closures produce, and the function emits:
`c1' = g^bits` enforced equal to the public `c1` unconditionally, and for
each zipped slot `c2'ᵢ = dh + mᵢ` enforced equal to the public `c2ᵢ` under
the condition `is_not_empty = (c2ᵢ ≠ 0)`. `Outcome.ok b` returns whether
that constraint set is satisfied by the assignment (`b = true` iff every
enforced equality holds). The `?`-propagated `SynthesisError`s of the
allocation and gadget calls (`Outcome.err`) cannot occur at value level. -/
def verify_encryption (gen : G) (toAffine : G → A) (H : P → A → Fq)
    (reprBits : S → List Bool) (params : Parameters P)
    (r : S) (pk : G) (plaintext : List Fq) (ciphertext : G × List Fq) :
    Outcome Bool :=
  if params.n ≥ plaintext.length ∧ params.n ≥ ciphertext.2.length then
    let randomness := reprBits r
    let s := scalar_mul_le pk randomness
    let c1 := scalar_mul_le gen randomness
    let dh := H params.poseidon (toAffine s)
    let checks := (plaintext.map fun m => dh + m).zip ciphertext.2
    Outcome.ok (decide (c1 = ciphertext.1) &&
      checks.all fun mc => decide (mc.2 = 0) || decide (mc.1 = mc.2))
  else
    Outcome.panicked

/-- `ConstraintSynthesizer::generate_constraints`: witnesses the plaintext
zero-padded to `n` slots, allocates the public ciphertext via
`ciphertext_var`, and calls `verify_encryption`. -/
def generate_constraints (gen : G) (toAffine : G → A) (H : P → A → Fq)
    (reprBits : S → List Bool) (circ : EncryptCircuit S G Fq P) :
    Outcome Bool :=
  let message := (List.range circ.params.n).map fun i => circ.msg.getD i 0
  let ciphertext := ciphertext_var circ
  verify_encryption gen toAffine H reprBits circ.params circ.r circ.pk
    message ciphertext

end Scheme

end ArkEncryption

namespace ArkEncryption

section Theorems

variable {S G A Fq P Ft : Type}
variable [CommRing S] [AddCommGroup G] [Module S G] [AddCommGroup Fq]

/-- C1: for every key pair `(sk, pk)` with `pk = sk • gen`, every
randomness `r`, and every plaintext `msg` with `msg.length ≤ params.n`,
decrypting `encrypt pk msg r params` with `sk` and the same `params`
returns a sequence whose first `msg.length` elements equal `msg`. -/
theorem encrypt_decrypt_roundtrip (gen : G) (toAffine : G → A) (H : P → A → Fq)
    (sk r : S) (pk : G) (msg : List Fq) (params : Parameters P)
    (hpk : pk = sk • gen) (hlen : msg.length ≤ params.n) :
    (decrypt toAffine H (encrypt gen toAffine H pk msg r params) sk
        params).take msg.length = msg := by
  subst hpk
  simp [decrypt, encrypt, List.map_map, smul_smul, mul_comm sk r,
    Function.comp_def, add_sub_cancel_left]

/-- Witness for C1 at `sk = 2`, `r = 3`, `msg = [5]`, `n = 1` over `ℤ`. -/
theorem encrypt_decrypt_roundtrip_witness :
    (2 : ℤ) = (2 : ℤ) • (1 : ℤ) ∧ [(5 : ℤ)].length ≤ (1 : Nat) ∧
      (decrypt (fun x : ℤ => x) (fun _ : Unit => fun a : ℤ => a)
          (encrypt (1 : ℤ) (fun x : ℤ => x) (fun _ : Unit => fun a : ℤ => a)
            (2 : ℤ) [(5 : ℤ)] (3 : ℤ) ⟨1, ()⟩)
          (2 : ℤ) ⟨1, ()⟩).take [(5 : ℤ)].length = [(5 : ℤ)] :=
  ⟨by norm_num, by norm_num,
    encrypt_decrypt_roundtrip (1 : ℤ) (fun x : ℤ => x)
      (fun _ : Unit => fun a : ℤ => a) (2 : ℤ) (3 : ℤ) (2 : ℤ) [(5 : ℤ)]
      ⟨1, ()⟩ (by norm_num) (by norm_num)⟩

/-- C2: `encrypt pk msg r params` returns `c1 = r • gen`, `dh` the single
sponge squeeze after absorbing the affine form of `r • pk`, and
`c2ᵢ = dh + mᵢ`; the returned `c2` has length exactly `msg.length`, not
padded to `n`. -/
theorem encrypt_components (gen : G) (toAffine : G → A) (H : P → A → Fq)
    (pk : G) (msg : List Fq) (r : S) (params : Parameters P) :
    encrypt gen toAffine H pk msg r params =
      (r • gen, msg.map fun m => H params.poseidon (toAffine (r • pk)) + m) ∧
    (encrypt gen toAffine H pk msg r params).2.length = msg.length := by
  refine ⟨rfl, ?_⟩
  simp [encrypt]

/-- C9: every circuit object built by `new` stores a public ciphertext
equal to `encrypt` of its own stored `pk`, `msg`, `r` and `params`, so the
witness data and the public ciphertext are congruent by construction. -/
theorem new_resulted_ciphertext_congruent (gen : G) (toAffine : G → A)
    (H : P → A → Fq) (pk : G) (msg : List Fq) (params : Parameters P)
    (r : S) :
    (EncryptCircuit.new gen toAffine H pk msg params r).resulted_ciphertext =
      encrypt gen toAffine H
        (EncryptCircuit.new gen toAffine H pk msg params r).pk
        (EncryptCircuit.new gen toAffine H pk msg params r).msg
        (EncryptCircuit.new gen toAffine H pk msg params r).r
        (EncryptCircuit.new gen toAffine H pk msg params r).params := rfl

/-- Helper: `List.getD` with default `0` ignores `take n` below index `n`. -/
theorem list_getD_take (l : List Fq) (n i : Nat) (h : i < n) :
    (l.take n).getD i 0 = l.getD i 0 := by
  simp [List.getD_eq_getElem?_getD, List.getElem?_take, h]

/-- C5: the public-input encoding is the `c1` embedding followed, in order,
by the embeddings of `c2.get i` for `i` in `0..n`, with the zero base-field
element substituted at every index where `c2` has no element. -/
theorem get_public_inputs_encoding (toFieldG : G → List Ft)
    (toFieldF : Fq → List Ft) (cipher : G × List Fq) (params : Parameters P) :
    get_public_inputs toFieldG toFieldF cipher params =
      toFieldG cipher.1 ++
        ((List.range params.n).map fun i =>
          toFieldF (if h : i < cipher.2.length then cipher.2.get ⟨i, h⟩
            else 0)).flatten := by
  unfold get_public_inputs
  have hmap : ((List.range params.n).map fun i => cipher.2.getD i 0) =
      (List.range params.n).map fun i =>
        if h : i < cipher.2.length then cipher.2.get ⟨i, h⟩ else 0 := by
    refine List.map_congr_left fun i _ => ?_
    by_cases h : i < cipher.2.length
    · simp [h, List.getD_eq_getElem?_getD, List.getElem?_eq_getElem h]
    · simp [h, List.getD_eq_getElem?_getD,
        List.getElem?_eq_none (le_of_not_lt h)]
  rw [hmap]
  simp [List.flatMap, List.map_map, Function.comp_def]

/-- C10: the public-input encoding depends only on `c1` and the first `n`
elements of `c2` — elements at indices `≥ n` are silently ignored — and
always consists of the `c1` embedding followed by exactly `n` slot
embeddings, regardless of `c2.length`. -/
theorem get_public_inputs_ignores_tail (toFieldG : G → List Ft)
    (toFieldF : Fq → List Ft) (c1 : G) (c2 : List Fq)
    (params : Parameters P) :
    get_public_inputs toFieldG toFieldF (c1, c2) params =
      get_public_inputs toFieldG toFieldF (c1, c2.take params.n) params ∧
    ∃ blocks : List (List Ft), blocks.length = params.n ∧
      get_public_inputs toFieldG toFieldF (c1, c2) params =
        toFieldG c1 ++ blocks.flatten ∧
      ∀ i, i < params.n → blocks.getD i [] = toFieldF (c2.getD i 0) := by
  constructor
  · unfold get_public_inputs
    have hmap : ((List.range params.n).map fun i => c2.getD i 0) =
        (List.range params.n).map fun i => (c2.take params.n).getD i 0 := by
      refine List.map_congr_left fun i hi => ?_
      exact (list_getD_take c2 params.n i (List.mem_range.mp hi)).symm
    rw [hmap]
  · refine ⟨(List.range params.n).map fun i => toFieldF (c2.getD i 0),
      by simp, ?_, ?_⟩
    · unfold get_public_inputs
      simp [List.flatMap, List.map_map, Function.comp_def]
    · intro i hi
      simp [List.getD_eq_getElem?_getD, List.getElem?_map,
        List.getElem?_range, hi]

/-- C7 counterexample: at `cipher.2 = [3]` and `idx = 1`, `decrypt_at`
fails (`none`, modelling the Rust out-of-bounds panic) even though `idx`
does not exceed `c2.length = 1`: the claim's "fails exactly when `idx`
exceeds `c2.len()`" is false at `idx = c2.len()`. -/
theorem decrypt_at_bounds_counterexample :
    decrypt_at (fun x : ℤ => x) (fun _ : Unit => fun a : ℤ => a)
        ((0 : ℤ), [(3 : ℤ)]) 1 (0 : ℤ) ⟨1, ()⟩ = none ∧
      ¬ 1 > [(3 : ℤ)].length := by
  exact ⟨rfl, by decide⟩

/-- C7 amended: `decrypt_at` returns `c2[idx] - dh` for every in-bounds
`idx` and fails exactly when `idx ≥ c2.length` (out of bounds), i.e. it
never fails for in-bounds indices. -/
theorem decrypt_at_bounds (toAffine : G → A) (H : P → A → Fq)
    (cipher : G × List Fq) (idx : Nat) (sk : S) (params : Parameters P) :
    decrypt_at toAffine H cipher idx sk params =
      if h : idx < cipher.2.length then
        some (cipher.2.get ⟨idx, h⟩ -
          H params.poseidon (toAffine (sk • cipher.1)))
      else none := by
  unfold decrypt_at
  by_cases h : idx < cipher.2.length
  · simp [List.getElem?_eq_getElem h, h]
  · simp [List.getElem?_eq_none (le_of_not_lt h), h]

/-- C6 counterexample: `encrypt` with a length-1 message and `n = 2`
produces a ciphertext whose `c2` has 1 slot, not `n`: the invariant
`c2.length = n` does not hold for the ciphertext `encrypt` returns. -/
theorem encrypt_c2_len_counterexample :
    (encrypt (1 : ℤ) (fun x : ℤ => x) (fun _ : Unit => fun a : ℤ => a)
        (0 : ℤ) [(5 : ℤ)] (0 : ℤ)
        (⟨2, ()⟩ : Parameters Unit)).2.length ≠
      (⟨2, ()⟩ : Parameters Unit).n := by
  simp [encrypt]

/-- C6 amended: `encrypt` returns `c2` of length `msg.length` (not `n`);
the `c2.length = n` invariant is instead established where the ciphertext
is consumed slot-wise over `0..n`: the circuit's public-input allocation
`ciphertext_var` pads to exactly `n` slots, with zero-valued padding in
every slot beyond the plaintext's actual length. -/
theorem ciphertext_width_policy (gen : G) (toAffine : G → A)
    (H : P → A → Fq) (pk : G) (msg : List Fq) (r : S)
    (params : Parameters P) :
    (encrypt gen toAffine H pk msg r params).2.length = msg.length ∧
    (ciphertext_var
        (EncryptCircuit.new gen toAffine H pk msg params r)).2.length =
      params.n ∧
    ∀ i, msg.length ≤ i → i < params.n →
      (ciphertext_var
          (EncryptCircuit.new gen toAffine H pk msg params r)).2.getD i 0 =
        0 := by
  refine ⟨by simp [encrypt], by simp [ciphertext_var, EncryptCircuit.new], ?_⟩
  intro i hge hlt
  have hlen : (encrypt gen toAffine H pk msg r params).2.length ≤ i := by
    simpa [encrypt] using hge
  simp [ciphertext_var, EncryptCircuit.new, List.getD_eq_getElem?_getD,
    List.getElem?_map, List.getElem?_range, hlt, List.getElem?_eq_none hlen]

/-- Witness for the amended C6 at `msg = [5]`, `n = 2`, padding slot
`i = 1`. -/
theorem ciphertext_width_policy_witness :
    [(5 : ℤ)].length ≤ 1 ∧ 1 < (⟨2, ()⟩ : Parameters Unit).n ∧
      (ciphertext_var
          (EncryptCircuit.new (1 : ℤ) (fun x : ℤ => x)
            (fun _ : Unit => fun a : ℤ => a) (0 : ℤ) [(5 : ℤ)]
            (⟨2, ()⟩ : Parameters Unit) (0 : ℤ))).2.getD 1 0 = 0 :=
  ⟨by decide, by decide,
    (ciphertext_width_policy (1 : ℤ) (fun x : ℤ => x)
        (fun _ : Unit => fun a : ℤ => a) (0 : ℤ) [(5 : ℤ)] (0 : ℤ)
        (⟨2, ()⟩ : Parameters Unit)).2.2 1 (by decide) (by decide)⟩

/-- Helper: `getD` through `map` at an in-bounds index. -/
theorem list_getD_map_lt (f : Fq → Fq) (l : List Fq) (i : Nat)
    (h : i < l.length) : (l.map f).getD i 0 = f (l.getD i 0) := by
  simp [List.getD_eq_getElem?_getD, List.getElem?_map,
    List.getElem?_eq_getElem h]

/-- Helper: a `Bool.all` over a zip holds iff the predicate holds at every
common index. -/
theorem list_all_zip_iff (p : Fq × Fq → Bool) :
    ∀ xs ys : List Fq, (xs.zip ys).all p = true ↔
      ∀ i, i < min xs.length ys.length →
        p (xs.getD i 0, ys.getD i 0) = true
  | [], ys => by simp
  | x :: xs, [] => by simp
  | x :: xs, y :: ys => by
    rw [List.zip_cons_cons, List.all_cons, Bool.and_eq_true,
      list_all_zip_iff p xs ys]
    constructor
    · rintro ⟨h0, hrest⟩ i hi
      cases i with
      | zero => simpa using h0
      | succ j =>
        simp only [List.getD_cons_succ]
        refine hrest j ?_
        simp only [List.length_cons] at hi
        omega
    · intro h
      refine ⟨by simpa using h 0 (by simp), fun j hj => ?_⟩
      have := h (j + 1) (by simp only [List.length_cons]; omega)
      simpa [List.getD_cons_succ] using this

/-- Helper: the gadget's zipped conditional checks hold iff every common
slot with a nonzero public value matches. -/
theorem list_all_checks_iff [DecidableEq Fq] (xs ys : List Fq) :
    ((xs.zip ys).all fun mc =>
        decide (mc.2 = 0) || decide (mc.1 = mc.2)) = true ↔
      ∀ i, i < min xs.length ys.length → ys.getD i 0 ≠ 0 →
        xs.getD i 0 = ys.getD i 0 := by
  rw [list_all_zip_iff]
  simp only [Bool.or_eq_true, decide_eq_true_eq]
  exact forall₂_congr fun i hi => or_iff_not_imp_left

/-- Helper: characterization of a satisfied gadget run: when the asserts
pass, `verify_encryption` returns `ok true` iff the recomputed `c1`
matches and every common slot with a nonzero public `c2` value matches
`dh + plaintextᵢ`. -/
theorem verify_encryption_ok_true_iff [DecidableEq G] [DecidableEq Fq]
    (gen : G) (toAffine : G → A) (H : P → A → Fq) (reprBits : S → List Bool)
    (params : Parameters P) (r : S) (pk : G) (plaintext : List Fq)
    (ciphertext : G × List Fq) (hpt : params.n ≥ plaintext.length)
    (hct : params.n ≥ ciphertext.2.length) :
    verify_encryption gen toAffine H reprBits params r pk plaintext
        ciphertext = Outcome.ok true ↔
      scalar_mul_le gen (reprBits r) = ciphertext.1 ∧
      ∀ i, i < min plaintext.length ciphertext.2.length →
        ciphertext.2.getD i 0 ≠ 0 →
        H params.poseidon (toAffine (scalar_mul_le pk (reprBits r))) +
          plaintext.getD i 0 = ciphertext.2.getD i 0 := by
  unfold verify_encryption
  rw [if_pos ⟨hpt, hct⟩]
  simp only [Outcome.ok.injEq, Bool.and_eq_true, decide_eq_true_eq,
    list_all_checks_iff, List.length_map]
  refine and_congr Iff.rfl (forall₂_congr fun i hi => ?_)
  rw [list_getD_map_lt _ _ _ (lt_of_lt_of_le hi (min_le_left _ _))]

/-- C3: the recomputed `c1' = g^(randomness bits)` is enforced equal to the
public `c1` unconditionally: whenever it differs from the public `c1`, no
run of the gadget is satisfied (`ok true` is impossible, for every witness
assignment). -/
theorem verify_encryption_enforces_c1 [DecidableEq G] [DecidableEq Fq]
    (gen : G) (toAffine : G → A) (H : P → A → Fq) (reprBits : S → List Bool)
    (params : Parameters P) (r : S) (pk : G) (plaintext : List Fq)
    (ciphertext : G × List Fq)
    (hne : scalar_mul_le gen (reprBits r) ≠ ciphertext.1) :
    verify_encryption gen toAffine H reprBits params r pk plaintext
      ciphertext ≠ Outcome.ok true := by
  intro h
  by_cases hc : params.n ≥ plaintext.length ∧ params.n ≥ ciphertext.2.length
  · exact hne
      (((verify_encryption_ok_true_iff gen toAffine H reprBits params r pk
        plaintext ciphertext hc.1 hc.2).mp h).1)
  · unfold verify_encryption at h
    rw [if_neg hc] at h
    exact Outcome.noConfusion h

/-- Witness for C3: with empty randomness bits the recomputed `c1'` is the
identity, which differs from the public `c1 = 1`, and the gadget indeed
rejects. -/
theorem verify_encryption_enforces_c1_witness :
    scalar_mul_le (1 : ℤ) ((fun _ : ℤ => ([] : List Bool)) 0) ≠
        ((1 : ℤ), ([] : List ℤ)).1 ∧
      verify_encryption (1 : ℤ) (fun x : ℤ => x)
          (fun _ : Unit => fun a : ℤ => a) (fun _ : ℤ => ([] : List Bool))
          (⟨0, ()⟩ : Parameters Unit) (0 : ℤ) (0 : ℤ) ([] : List ℤ)
          ((1 : ℤ), ([] : List ℤ)) ≠ Outcome.ok true :=
  ⟨by decide,
    verify_encryption_enforces_c1 (1 : ℤ) (fun x : ℤ => x)
      (fun _ : Unit => fun a : ℤ => a) (fun _ : ℤ => ([] : List Bool))
      (⟨0, ()⟩ : Parameters Unit) (0 : ℤ) (0 : ℤ) ([] : List ℤ)
      ((1 : ℤ), ([] : List ℤ)) (by decide)⟩

/-- C4: with the fixed-width shapes the synthesizer always supplies
(`plaintext.length = n`, public `c2.length = n`), a satisfied gadget run
matches `dh + plaintextᵢ` against the public `c2ᵢ` at every slot whose
public value is nonzero, and every slot whose public value is exactly zero
is left unconstrained: replacing the witnessed plaintext at such slots by
arbitrary values keeps the system satisfiable. -/
theorem verify_encryption_conditional_slots [DecidableEq G] [DecidableEq Fq]
    (gen : G) (toAffine : G → A) (H : P → A → Fq) (reprBits : S → List Bool)
    (params : Parameters P) (r : S) (pk : G) (plaintext : List Fq)
    (ciphertext : G × List Fq) (hpt : plaintext.length = params.n)
    (hct : ciphertext.2.length = params.n)
    (hsat : verify_encryption gen toAffine H reprBits params r pk plaintext
        ciphertext = Outcome.ok true) :
    (∀ i, i < params.n → ciphertext.2.getD i 0 ≠ 0 →
      H params.poseidon (toAffine (scalar_mul_le pk (reprBits r))) +
        plaintext.getD i 0 = ciphertext.2.getD i 0) ∧
    ∀ plaintext' : List Fq, plaintext'.length = params.n →
      (∀ i, i < params.n → ciphertext.2.getD i 0 ≠ 0 →
        plaintext'.getD i 0 = plaintext.getD i 0) →
      verify_encryption gen toAffine H reprBits params r pk plaintext'
        ciphertext = Outcome.ok true := by
  rw [verify_encryption_ok_true_iff gen toAffine H reprBits params r pk
    plaintext ciphertext (le_of_eq hpt) (le_of_eq hct)] at hsat
  obtain ⟨hc1, hslots⟩ := hsat
  constructor
  · intro i hi hne
    exact hslots i (by omega) hne
  · intro plaintext' hlen' hagree
    rw [verify_encryption_ok_true_iff gen toAffine H reprBits params r pk
      plaintext' ciphertext (le_of_eq hlen') (le_of_eq hct)]
    refine ⟨hc1, fun i hi hne => ?_⟩
    rw [hagree i (by omega) hne]
    exact hslots i (by omega) hne

/-- Witness for C4 at `n = 2`, plaintext `[4, 9]`, public `c2 = [4, 0]`:
the zero slot is unconstrained, e.g. replacing `9` by `7` stays
satisfiable. -/
theorem verify_encryption_conditional_slots_witness :
    [(4 : ℤ), 9].length = (⟨2, ()⟩ : Parameters Unit).n ∧
      ((0 : ℤ), [(4 : ℤ), 0]).2.length = (⟨2, ()⟩ : Parameters Unit).n ∧
      verify_encryption (1 : ℤ) (fun x : ℤ => x)
          (fun _ : Unit => fun a : ℤ => a) (fun _ : ℤ => ([] : List Bool))
          (⟨2, ()⟩ : Parameters Unit) (0 : ℤ) (7 : ℤ) [(4 : ℤ), 9]
          ((0 : ℤ), [(4 : ℤ), 0]) = Outcome.ok true ∧
      ((∀ i, i < (⟨2, ()⟩ : Parameters Unit).n →
          ((0 : ℤ), [(4 : ℤ), 0]).2.getD i 0 ≠ 0 →
          (fun _ : Unit => fun a : ℤ => a) (⟨2, ()⟩ : Parameters Unit).poseidon
              ((fun x : ℤ => x)
                (scalar_mul_le (7 : ℤ) ((fun _ : ℤ => ([] : List Bool)) 0))) +
            [(4 : ℤ), 9].getD i 0 = ((0 : ℤ), [(4 : ℤ), 0]).2.getD i 0) ∧
        ∀ plaintext' : List ℤ,
          plaintext'.length = (⟨2, ()⟩ : Parameters Unit).n →
          (∀ i, i < (⟨2, ()⟩ : Parameters Unit).n →
            ((0 : ℤ), [(4 : ℤ), 0]).2.getD i 0 ≠ 0 →
            plaintext'.getD i 0 = [(4 : ℤ), 9].getD i 0) →
          verify_encryption (1 : ℤ) (fun x : ℤ => x)
            (fun _ : Unit => fun a : ℤ => a) (fun _ : ℤ => ([] : List Bool))
            (⟨2, ()⟩ : Parameters Unit) (0 : ℤ) (7 : ℤ) plaintext'
            ((0 : ℤ), [(4 : ℤ), 0]) = Outcome.ok true) :=
  ⟨by decide, by decide, by decide,
    verify_encryption_conditional_slots (1 : ℤ) (fun x : ℤ => x)
      (fun _ : Unit => fun a : ℤ => a) (fun _ : ℤ => ([] : List Bool))
      (⟨2, ()⟩ : Parameters Unit) (0 : ℤ) (7 : ℤ) [(4 : ℤ), 9]
      ((0 : ℤ), [(4 : ℤ), 0]) (by decide) (by decide) (by decide)⟩

/-- C8 counterexample: with `n = 0` and a length-1 plaintext the gadget
run aborts through the panicking `assert!` (`Outcome.panicked`), not
through the recoverable error channel (`Outcome.err`), refuting "reported
as a recoverable validation error at call time rather than a panic". -/
theorem verify_encryption_panic_counterexample :
    verify_encryption (1 : ℤ) (fun x : ℤ => x)
        (fun _ : Unit => fun a : ℤ => a) (fun _ : ℤ => ([] : List Bool))
        (⟨0, ()⟩ : Parameters Unit) (0 : ℤ) (0 : ℤ) [(1 : ℤ)]
        ((0 : ℤ), ([] : List ℤ)) = Outcome.panicked ∧
      verify_encryption (1 : ℤ) (fun x : ℤ => x)
        (fun _ : Unit => fun a : ℤ => a) (fun _ : ℤ => ([] : List Bool))
        (⟨0, ()⟩ : Parameters Unit) (0 : ℤ) (0 : ℤ) [(1 : ℤ)]
        ((0 : ℤ), ([] : List ℤ)) ≠ Outcome.err := by
  exact ⟨by decide, by decide⟩

/-- C8 amended: violating `params.n ≥ plaintext.length` or
`params.n ≥ ciphertext.2.length` aborts `verify_encryption` before any
constraint is synthesized, but through a panicking `assert!`
(`Outcome.panicked`), not a recoverable validation error; with the
preconditions satisfied it never panics. -/
theorem verify_encryption_assert_panics [DecidableEq G] [DecidableEq Fq]
    (gen : G) (toAffine : G → A) (H : P → A → Fq) (reprBits : S → List Bool)
    (params : Parameters P) (r : S) (pk : G) (plaintext : List Fq)
    (ciphertext : G × List Fq) :
    verify_encryption gen toAffine H reprBits params r pk plaintext
        ciphertext = Outcome.panicked ↔
      params.n < plaintext.length ∨ params.n < ciphertext.2.length := by
  unfold verify_encryption
  by_cases hc : params.n ≥ plaintext.length ∧ params.n ≥ ciphertext.2.length
  · rw [if_pos hc]
    constructor
    · intro h
      exact Outcome.noConfusion h
    · intro h
      rcases h with h | h
      · exact absurd hc.1 (not_le.mpr h)
      · exact absurd hc.2 (not_le.mpr h)
  · rw [if_neg hc]
    constructor
    · intro _
      rcases not_and_or.mp hc with h | h
      · exact Or.inl (not_le.mp h)
      · exact Or.inr (not_le.mp h)
    · intro _
      rfl

end Theorems

end ArkEncryption
